import Mathlib

/-!
Verification of the pywinsor2 winsorizing/trimming engine against its
natural-language specification.  The engine itself (percentile-threshold
computation, cut resolution, the clamp/trim/flag/extreme transform, table
assembly) is embedded shallowly below; values are `Option ℚ`
(numeric-or-missing), columns are lists of values, tables are ordered
association lists of named columns.
-/

namespace Pywinsor2

/-- Modelled from the spec: the two error kinds of §7 — `ConfigurationError`
for invalid or contradictory options, `DataError` for insufficient data or a
missing variable/group column.  The concrete engine is not part of the
sources, so the whole error surface is taken from the spec. -/
inductive W2Error where
  | configError (msg : String) : W2Error
  | dataError (msg : String) : W2Error
deriving DecidableEq, Repr

instance exceptDecEq (ε α : Type) [DecidableEq ε] [DecidableEq α] :
    DecidableEq (Except ε α) := fun a b =>
  match a, b with
  | .error e, .error f =>
    decidable_of_iff (e = f) ⟨fun h => by rw [h], fun h => Except.error.inj h⟩
  | .error _, .ok _ => isFalse (fun h => Except.noConfusion h)
  | .ok _, .error _ => isFalse (fun h => Except.noConfusion h)
  | .ok x, .ok y =>
    decidable_of_iff (x = y) ⟨fun h => by rw [h], fun h => Except.ok.inj h⟩

/-- A column: an ordered sequence of numeric-or-missing values. -/
abbrev Column : Type := List (Option ℚ)

/-- A table: an ordered collection of named columns. -/
abbrev Table : Type := List (String × Column)

/-- The non-missing values of a column, in order. -/
def nonMissing (vals : Column) : List ℚ :=
  vals.filterMap id

/-- Modelled from the spec: the interpolation position for percentile `p`
over `n` sorted values, `h = p/100 × (n − 1)`. -/
def quantilePosition (n : ℕ) (p : ℚ) : ℚ :=
  p / 100 * ((n : ℚ) - 1)

/-- Modelled from the spec: linear interpolation at position `h` over a
sorted list `s`: with `k = ⌊h⌋`, value `s[k] + (h − k) · (s[k+1] − s[k])`
(the fractional part vanishes when `h` is integral, so the `k+1` access is
never material at the top position). -/
def interpQuantile (s : List ℚ) (h : ℚ) : ℚ :=
  let k : ℕ := (Int.floor h).toNat
  s.getD k 0 + (h - (k : ℚ)) * (s.getD (k + 1) 0 - s.getD k 0)

/-- Modelled from the spec (§4.2 Threshold Calculator): drop missing values;
with fewer than 2 remaining fail with a `DataError`; otherwise sort and
return the linearly interpolated low and high quantile values. -/
def computeThreshold (vals : Column) (cuts : ℚ × ℚ) : Except W2Error (ℚ × ℚ) :=
  let xs := nonMissing vals
  if xs.length < 2 then
    .error (.dataError "insufficient observations for quantile estimation")
  else
    let s := List.insertionSort (· ≤ ·) xs
    .ok (interpQuantile s (quantilePosition xs.length cuts.1),
         interpQuantile s (quantilePosition xs.length cuts.2))

/-- Clamp a value into `[lo, hi]`. -/
def clampQ (lo hi x : ℚ) : ℚ := max lo (min hi x)

/-- Modelled from the spec: winsorize = clamp non-missing values into
`[lo, hi]`; missing stays missing. -/
def winsorizeValue (lo hi : ℚ) : Option ℚ → Option ℚ
  | none => none
  | some x => some (clampQ lo hi x)

/-- Modelled from the spec: trim = keep values inside `[lo, hi]`, replace
values outside by missing; missing stays missing. -/
def trimValue (lo hi : ℚ) : Option ℚ → Option ℚ
  | none => none
  | some x => if lo ≤ x ∧ x ≤ hi then some x else none

/-- Modelled from the spec (§4.3): `flag[i] = 1` iff the input was
non-missing and the trimmed output is missing; else `0`. -/
def flagValue (lo hi : ℚ) : Option ℚ → Option ℚ
  | none => some 0
  | some x => if lo ≤ x ∧ x ≤ hi then some 0 else some 1

/-- Modelled from the spec: the low-extreme column holds the input where it
is non-missing and below `lo`, else missing. -/
def extremeLowValue (lo _hi : ℚ) : Option ℚ → Option ℚ
  | none => none
  | some x => if x < lo then some x else none

/-- Modelled from the spec: the high-extreme column holds the input where it
is non-missing and above `hi`, else missing. -/
def extremeHighValue (_lo hi : ℚ) : Option ℚ → Option ℚ
  | none => none
  | some x => if hi < x then some x else none

/-- Winsorize a whole column with fixed thresholds. -/
def winsorizeColumn (lo hi : ℚ) (vals : Column) : Column :=
  vals.map (winsorizeValue lo hi)

/-- Trim a whole column with fixed thresholds. -/
def trimColumn (lo hi : ℚ) (vals : Column) : Column :=
  vals.map (trimValue lo hi)

/-- Flag a whole column with fixed thresholds. -/
def flagColumn (lo hi : ℚ) (vals : Column) : Column :=
  vals.map (flagValue lo hi)

/-- Low-extreme capture over a whole column. -/
def extremeLowColumn (lo hi : ℚ) (vals : Column) : Column :=
  vals.map (extremeLowValue lo hi)

/-- High-extreme capture over a whole column. -/
def extremeHighColumn (lo hi : ℚ) (vals : Column) : Column :=
  vals.map (extremeHighValue lo hi)

/-- The ungrouped winsorize pipeline: resolve thresholds from the column
itself, then clamp the column. -/
def winsorizePipeline (vals : Column) (cuts : ℚ × ℚ) : Except W2Error Column := do
  let th ← computeThreshold vals cuts
  .ok (winsorizeColumn th.1 th.2 vals)

/-- Lookup of a group key in a per-group threshold table (first match). -/
def lookupKey (g : Option ℚ) : List (Option ℚ × (ℚ × ℚ)) → Option (ℚ × ℚ)
  | [] => none
  | (k, th) :: rest => if k = g then some th else lookupKey g rest

/-- Lookup of a column by name in a table (first match). -/
def lookupCol (name : String) : Table → Option Column
  | [] => none
  | (n, c) :: rest => if n = name then some c else lookupCol name rest

/-- The sub-column of `vals` belonging to group `g` of the key column. -/
def groupValues (keys vals : Column) (g : Option ℚ) : Column :=
  ((keys.zip vals).filter (fun p => decide (p.1 = g))).map Prod.snd

/-- Modelled from the spec: thresholds are computed independently per group,
each from only the values of that group; any group failure aborts the call. -/
def thresholdTable (keys vals : Column) (cuts : ℚ × ℚ) :
    List (Option ℚ) → Except W2Error (List (Option ℚ × (ℚ × ℚ)))
  | [] => .ok []
  | g :: gs => do
    let th ← computeThreshold (groupValues keys vals g) cuts
    let rest ← thresholdTable keys vals cuts gs
    .ok ((g, th) :: rest)

/-- Apply a per-value transform observation-wise, resolving each
threshold of each observation via its group key. -/
def applyByKey (f : ℚ → ℚ → Option ℚ → Option ℚ)
    (tt : List (Option ℚ × (ℚ × ℚ))) : List (Option ℚ) → Column → Column
  | [], _ => []
  | _ :: _, [] => []
  | k :: ks, v :: vs =>
    (match lookupKey k tt with
     | some th => f th.1 th.2 v
     | none => none) :: applyByKey f tt ks vs

/-- Modelled from the spec: group-wise transform of one column — partition by
key, compute a threshold per distinct key, transform each observation with
the threshold of its group, preserving observation order. -/
def groupedApply (f : ℚ → ℚ → Option ℚ → Option ℚ)
    (keys vals : Column) (cuts : ℚ × ℚ) : Except W2Error Column := do
  let tt ← thresholdTable keys vals cuts keys.dedup
  .ok (applyByKey f tt keys vals)

/-- Modelled from the spec (§6): the recognized configuration options of the
`process` operation. -/
structure Winsor2Options where
  cuts : ℚ × ℚ
  cutlow : Option ℚ
  cuthigh : Option ℚ
  varCuts : List (String × (ℚ × ℚ))
  byVar : Option String
  trim : Bool
  replace : Bool
  suffix : Option String
  genflag : Option String
  genextreme : Option (List String)
  label : Bool
  verbose : Bool
deriving DecidableEq

/-- The system default options: cuts (1, 99), winsorize, suffixed copy. -/
def defaultOptions : Winsor2Options :=
  ⟨(1, 99), none, none, [], none, false, false, none, none, none, false, false⟩

/-- Lookup in the per-variable cuts override mapping (first match). -/
def lookupVarCuts (name : String) : List (String × (ℚ × ℚ)) → Option (ℚ × ℚ)
  | [] => none
  | (n, c) :: rest => if n = name then some c else lookupVarCuts name rest

/-- Modelled from the spec (§4.1 Cut Resolver): per-variable mapping beats
the individual `cutlow`/`cuthigh` singles, which each beat the corresponding
bound of the global pair (whose default is the system (1, 99)). -/
def resolveCuts (o : Winsor2Options) (v : String) : ℚ × ℚ :=
  match lookupVarCuts v o.varCuts with
  | some p => p
  | none => (o.cutlow.getD o.cuts.1, o.cuthigh.getD o.cuts.2)

/-- Whether the `genextreme` option names other than exactly two suffixes. -/
def badGenextreme (o : Winsor2Options) : Bool :=
  match o.genextreme with
  | some l => decide (l.length ≠ 2)
  | none => false

/-- Whether the per-variable cuts mapping names a variable outside the
requested variable list. -/
def badVarCuts (vars : List String) (o : Winsor2Options) : Bool :=
  o.varCuts.any (fun p => decide (p.1 ∉ vars))

/-- Whether the resolved cuts of some variable violate `0 ≤ low < high ≤ 100`. -/
def badCuts (vars : List String) (o : Winsor2Options) : Bool :=
  vars.any (fun v =>
    let c := resolveCuts o v
    decide (¬ (0 ≤ c.1 ∧ c.1 < c.2 ∧ c.2 ≤ 100)))

/-- Modelled from the spec (§7): all configuration is validated before any
data is touched; every validation failure is a `ConfigurationError`. -/
def validateOptions (vars : List String) (o : Winsor2Options) : Except W2Error Unit :=
  if o.genflag.isSome && !o.trim then
    .error (.configError "genflag can only be used with trim mode")
  else if badGenextreme o then
    .error (.configError "genextreme must be a tuple of 2 suffixes")
  else if badVarCuts vars o then
    .error (.configError "var_cuts contains variables not in varlist")
  else if badCuts vars o then
    .error (.configError "percentiles must satisfy 0 <= low < high <= 100")
  else .ok ()

/-- The per-value transform selected by the transform kind. -/
def transformFn (o : Winsor2Options) : ℚ → ℚ → Option ℚ → Option ℚ :=
  if o.trim then trimValue else winsorizeValue

/-- The output-column suffix: custom if given, else `_tr` for trimming and
`_w` for winsorizing. -/
def mainSuffix (o : Winsor2Options) : String :=
  match o.suffix with
  | some s => s
  | none => if o.trim then "_tr" else "_w"

/-- Modelled from the spec (§3 OutputColumns): the derived columns for one
variable — the transformed column (suffixed, or the original name in replace
mode), the optional flag column, the optional two extreme-value columns. -/
def outColumns (o : Winsor2Options) (v : String) (tt : List (Option ℚ × (ℚ × ℚ)))
    (keys vals : Column) : List (String × Column) :=
  let mainName := if o.replace then v else v ++ mainSuffix o
  let base := [(mainName, applyByKey (transformFn o) tt keys vals)]
  let withFlag :=
    match o.genflag with
    | some s => base ++ [(v ++ s, applyByKey flagValue tt keys vals)]
    | none => base
  match o.genextreme with
  | some (sl :: sh :: _) =>
    withFlag ++ [(v ++ sl, applyByKey extremeLowValue tt keys vals),
                 (v ++ sh, applyByKey extremeHighValue tt keys vals)]
  | _ => withFlag

/-- The group-key column: the grouping column when `by` is given, else one
implicit group covering all observations. -/
def groupKeysFor (t : Table) (o : Winsor2Options) (n : ℕ) : Except W2Error Column :=
  match o.byVar with
  | none => .ok (List.replicate n none)
  | some g =>
    match lookupCol g t with
    | some c => .ok c
    | none => .error (.dataError "grouping variable not found in table")

/-- The derived columns for one variable whose column is `vals`: resolve cuts,
compute the per-group threshold table, and emit the output columns. -/
def processVarCols (t : Table) (o : Winsor2Options) (v : String) (vals : Column) :
    Except W2Error (List (String × Column)) := do
  let keys ← groupKeysFor t o vals.length
  let tt ← thresholdTable keys vals (resolveCuts o v) keys.dedup
  .ok (outColumns o v tt keys vals)

/-- Process a single variable: fetch its column, resolve cuts, compute the
per-group threshold table, and emit the derived columns. -/
def processVar (t : Table) (o : Winsor2Options) (v : String) :
    Except W2Error (List (String × Column)) :=
  match lookupCol v t with
  | none => .error (.dataError "variable not found in table")
  | some vals => processVarCols t o v vals

/-- Process each requested variable in order, concatenating the derived
columns; any failure aborts the whole call. -/
def processVars (t : Table) (o : Winsor2Options) :
    List String → Except W2Error (List (String × Column))
  | [] => .ok []
  | v :: vs => do
    let cols ← processVar t o v
    let rest ← processVars t o vs
    .ok (cols ++ rest)

/-- Overwrite a named column if present, else append it. -/
def setColumn (t : Table) (name : String) (c : Column) : Table :=
  if (lookupCol name t).isSome then
    t.map (fun p => if p.1 = name then (name, c) else p)
  else t ++ [(name, c)]

/-- Merge derived columns into the table by overwrite-or-append. -/
def mergeColumns (t : Table) : List (String × Column) → Table
  | [] => t
  | (n, c) :: rest => mergeColumns (setColumn t n c) rest

/-- Modelled from the spec (§6): the `process` operation — validate the
configuration first (fail fast), derive the new columns for every requested
variable, and append them to a copy of the input table (or merge them over
it in replace mode). -/
def process (t : Table) (vars : List String) (o : Winsor2Options) :
    Except W2Error Table := do
  let _ ← validateOptions vars o
  let newCols ← processVars t o vars
  if o.replace then .ok (mergeColumns t newCols)
  else .ok (t ++ newCols)

/-! ### Helper lemmas -/

lemma getD_map_none (f : Option ℚ → Option ℚ) (hf : f none = none)
    (l : Column) (i : ℕ) : (l.map f).getD i none = f (l.getD i none) := by
  induction l generalizing i with
  | nil => simp [List.getD, hf]
  | cons a l ih =>
    cases i with
    | zero => simp [List.getD_cons_zero]
    | succ n => simpa [List.getD_cons_succ] using ih n

lemma sorted_getD_mono {s : List ℚ} (hs : s.Sorted (· ≤ ·)) {i j : ℕ}
    (hij : i ≤ j) (hj : j < s.length) : s.getD i 0 ≤ s.getD j 0 := by
  have hi : i < s.length := lt_of_le_of_lt hij hj
  rw [List.getD_eq_getElem s 0 hi, List.getD_eq_getElem s 0 hj]
  exact hs.rel_get_of_le (a := ⟨i, hi⟩) (b := ⟨j, hj⟩) hij

lemma toNat_floor_cast {h : ℚ} (h0 : 0 ≤ h) :
    (((Int.floor h).toNat : ℕ) : ℚ) = (Int.floor h : ℚ) := by
  have := Int.toNat_of_nonneg (Int.floor_nonneg.mpr h0)
  exact_mod_cast congrArg (fun z : ℤ => (z : ℚ)) this

lemma interpQuantile_mono {s : List ℚ} (hs : s.Sorted (· ≤ ·)) {h1 h2 : ℚ}
    (h0 : 0 ≤ h1) (h12 : h1 ≤ h2) (hub : h2 ≤ (s.length : ℚ) - 1) :
    interpQuantile s h1 ≤ interpQuantile s h2 := by
  have h02 : 0 ≤ h2 := le_trans h0 h12
  set k1 := (Int.floor h1).toNat with hk1
  set k2 := (Int.floor h2).toNat with hk2
  have hk1c : (k1 : ℚ) ≤ h1 := by
    rw [hk1, toNat_floor_cast h0]; exact Int.floor_le h1
  have hk2c : (k2 : ℚ) ≤ h2 := by
    rw [hk2, toNat_floor_cast h02]; exact Int.floor_le h2
  have hk1u : h1 < (k1 : ℚ) + 1 := by
    rw [hk1, toNat_floor_cast h0]; exact Int.lt_floor_add_one h1
  have hk2u : h2 < (k2 : ℚ) + 1 := by
    rw [hk2, toNat_floor_cast h02]; exact Int.lt_floor_add_one h2
  have hk2len : k2 + 1 ≤ s.length := by
    have : (k2 : ℚ) ≤ (s.length : ℚ) - 1 := le_trans hk2c hub
    have : (k2 : ℚ) + 1 ≤ (s.length : ℚ) := by linarith
    exact_mod_cast this
  have hk12 : k1 ≤ k2 := by
    rw [hk1, hk2]
    exact Int.toNat_le_toNat (Int.floor_le_floor h12)
  rcases eq_or_lt_of_le hk12 with heq | hlt
  · -- both positions fall in the same segment
    simp only [interpQuantile, ← hk1, ← hk2, ← heq]
    rcases lt_or_eq_of_le hk2len with hin | hedge
    · have hslope : s.getD k1 0 ≤ s.getD (k1 + 1) 0 :=
        sorted_getD_mono hs (Nat.le_succ k1) (by omega)
      nlinarith [hslope, h12]
    · -- the segment start is the last index: both positions are that index
      have hk2eq : (k2 : ℚ) = (s.length : ℚ) - 1 := by
        have : ((k2 + 1 : ℕ) : ℚ) = (s.length : ℚ) := by exact_mod_cast congrArg (fun n : ℕ => (n : ℚ)) hedge
        push_cast at this
        linarith
      have hh2 : h2 = (k2 : ℚ) := le_antisymm (by rw [hk2eq]; exact hub) hk2c
      have hh1 : h1 = (k1 : ℚ) := by
        have : (k1 : ℚ) ≤ h1 := hk1c
        have : h1 ≤ (k2 : ℚ) := by rw [← hh2]; exact h12
        rw [← heq] at this
        linarith [hk1c]
      rw [hh1, hh2, ← heq]
  · -- strictly later segment
    have hk1len : k1 + 1 < s.length := by omega
    have hstep1 : interpQuantile s h1 ≤ s.getD (k1 + 1) 0 := by
      simp only [interpQuantile, ← hk1]
      have hslope : s.getD k1 0 ≤ s.getD (k1 + 1) 0 :=
        sorted_getD_mono hs (Nat.le_succ k1) hk1len
      nlinarith [hslope, hk1c, hk1u]
    have hstep2 : s.getD (k1 + 1) 0 ≤ s.getD k2 0 :=
      sorted_getD_mono hs hlt (by omega)
    have hstep3 : s.getD k2 0 ≤ interpQuantile s h2 := by
      simp only [interpQuantile, ← hk2]
      rcases eq_or_lt_of_le hk2c with hfr0 | hfrpos
      · rw [← hfr0]
        ring_nf
        exact le_rfl
      · have hk2in : k2 + 1 < s.length := by
          rcases lt_or_eq_of_le hk2len with hin | hedge
          · exact hin
          · exfalso
            have : ((k2 + 1 : ℕ) : ℚ) = (s.length : ℚ) := by exact_mod_cast congrArg (fun n : ℕ => (n : ℚ)) hedge
            push_cast at this
            have : h2 ≤ (k2 : ℚ) := by linarith [hub]
            linarith
        have hslope : s.getD k2 0 ≤ s.getD (k2 + 1) 0 :=
          sorted_getD_mono hs (Nat.le_succ k2) hk2in
        nlinarith [hslope]
    linarith

lemma computeThreshold_ok_elim {vals : Column} {cuts : ℚ × ℚ} {th : ℚ × ℚ}
    (hok : computeThreshold vals cuts = .ok th) :
    2 ≤ (nonMissing vals).length ∧
    th.1 = interpQuantile (List.insertionSort (· ≤ ·) (nonMissing vals))
        (quantilePosition (nonMissing vals).length cuts.1) ∧
    th.2 = interpQuantile (List.insertionSort (· ≤ ·) (nonMissing vals))
        (quantilePosition (nonMissing vals).length cuts.2) := by
  unfold computeThreshold at hok
  by_cases hlen : (nonMissing vals).length < 2
  · simp only [hlen, if_pos] at hok
    exact absurd hok (by simp)
  · simp only [hlen, if_neg, if_false] at hok
    have := Except.ok.inj hok
    refine ⟨by omega, ?_, ?_⟩
    · rw [← this]
    · rw [← this]

lemma quantilePosition_nonneg {n : ℕ} {p : ℚ} (hp : 0 ≤ p) (hn : 2 ≤ n) :
    0 ≤ quantilePosition n p := by
  unfold quantilePosition
  have : (2 : ℚ) ≤ (n : ℚ) := by exact_mod_cast hn
  have h1 : (0 : ℚ) ≤ (n : ℚ) - 1 := by linarith
  positivity

lemma quantilePosition_mono {n : ℕ} {p q : ℚ} (hpq : p ≤ q) (hn : 2 ≤ n) :
    quantilePosition n p ≤ quantilePosition n q := by
  unfold quantilePosition
  have : (2 : ℚ) ≤ (n : ℚ) := by exact_mod_cast hn
  have h1 : (0 : ℚ) ≤ (n : ℚ) - 1 := by linarith
  have h2 : p / 100 ≤ q / 100 := by linarith
  exact mul_le_mul_of_nonneg_right h2 h1

lemma quantilePosition_le {n : ℕ} {p : ℚ} (hp : p ≤ 100) (hp0 : 0 ≤ p) (hn : 2 ≤ n) :
    quantilePosition n p ≤ (n : ℚ) - 1 := by
  unfold quantilePosition
  have : (2 : ℚ) ≤ (n : ℚ) := by exact_mod_cast hn
  have h1 : (0 : ℚ) ≤ (n : ℚ) - 1 := by linarith
  have h2 : p / 100 ≤ 1 := by linarith
  calc p / 100 * ((n : ℚ) - 1) ≤ 1 * ((n : ℚ) - 1) := mul_le_mul_of_nonneg_right h2 h1
  _ = (n : ℚ) - 1 := one_mul _

lemma computeThreshold_lo_le_hi {vals : Column} {pl ph lo hi : ℚ}
    (hpl : 0 ≤ pl) (hplph : pl ≤ ph) (hph : ph ≤ 100)
    (hok : computeThreshold vals (pl, ph) = .ok (lo, hi)) : lo ≤ hi := by
  obtain ⟨hlen, hlo, hhi⟩ := computeThreshold_ok_elim hok
  have hsorted : List.Sorted (· ≤ ·) (List.insertionSort (· ≤ ·) (nonMissing vals)) :=
    List.sorted_insertionSort (· ≤ ·) (nonMissing vals)
  have hslen : (List.insertionSort (· ≤ ·) (nonMissing vals)).length =
      (nonMissing vals).length := List.length_insertionSort (· ≤ ·) (nonMissing vals)
  simp only at hlo hhi
  rw [hlo, hhi]
  refine interpQuantile_mono hsorted (quantilePosition_nonneg hpl hlen)
    (quantilePosition_mono hplph hlen) ?_
  rw [hslen]
  exact quantilePosition_le hph (le_trans hpl hplph) hlen

lemma clampQ_bounds {lo hi : ℚ} (x : ℚ) (hlohi : lo ≤ hi) :
    lo ≤ clampQ lo hi x ∧ clampQ lo hi x ≤ hi :=
  ⟨le_max_left _ _, max_le hlohi (min_le_left _ _)⟩

lemma clampQ_eq_self {lo hi x : ℚ} (h1 : lo ≤ x) (h2 : x ≤ hi) :
    clampQ lo hi x = x := by
  unfold clampQ
  rw [min_eq_right h2, max_eq_right h1]

lemma clampQ_idem (lo hi x : ℚ) :
    clampQ lo hi (clampQ lo hi x) = clampQ lo hi x := by
  unfold clampQ
  rcases le_total lo hi with h | h
  · rcases le_total x hi with h1 | h1 <;> rcases le_total lo x with h2 | h2 <;>
      simp [min_def, max_def] <;> split_ifs <;> linarith
  · simp [min_def, max_def] <;> split_ifs <;> linarith

lemma getD_map_lt (f : Option ℚ → Option ℚ) (l : Column) {i : ℕ} (hi : i < l.length) :
    (l.map f).getD i none = f (l.getD i none) := by
  rw [List.getD_eq_getElem _ _ (by simpa using hi), List.getD_eq_getElem _ _ hi,
    List.getElem_map]

lemma applyByKey_length (f : ℚ → ℚ → Option ℚ → Option ℚ)
    (tt : List (Option ℚ × (ℚ × ℚ))) :
    ∀ keys vals : Column, (applyByKey f tt keys vals).length = min keys.length vals.length
  | [], _ => by simp [applyByKey]
  | _ :: _, [] => by simp [applyByKey]
  | k :: ks, v :: vs => by
    simp [applyByKey, applyByKey_length f tt ks vs]
    omega

lemma applyByKey_getD (f : ℚ → ℚ → Option ℚ → Option ℚ)
    (tt : List (Option ℚ × (ℚ × ℚ))) (keys vals : Column) (i : ℕ)
    (hk : i < keys.length) (hv : i < vals.length) :
    (applyByKey f tt keys vals).getD i none =
      match lookupKey (keys.getD i none) tt with
      | some th => f th.1 th.2 (vals.getD i none)
      | none => none := by
  induction keys generalizing vals i with
  | nil => simp at hk
  | cons k ks ih =>
    cases vals with
    | nil => simp at hv
    | cons v vs =>
      cases i with
      | zero => simp [applyByKey, List.getD_cons_zero]
      | succ n =>
        simp only [applyByKey, List.getD_cons_succ]
        exact ih vs n (by simpa using hk) (by simpa using hv)

lemma applyByKey_getD_missing (f : ℚ → ℚ → Option ℚ → Option ℚ)
    (hf : ∀ lo hi, f lo hi none = none) (tt : List (Option ℚ × (ℚ × ℚ)))
    (keys vals : Column) (i : ℕ) (hv : vals.getD i none = none) :
    (applyByKey f tt keys vals).getD i none = none := by
  by_cases hin : i < keys.length ∧ i < vals.length
  · rw [applyByKey_getD f tt keys vals i hin.1 hin.2, hv]
    cases lookupKey (keys.getD i none) tt with
    | none => rfl
    | some th => exact hf th.1 th.2
  · apply List.getD_eq_default
    rw [applyByKey_length]
    omega

/-! ### Claim C1 -/

/-- C1: for a variable processed in winsorize mode with a threshold pair resolved by
the Threshold Calculator from a valid percentile pair, every observation with a
non-missing input has output `clamp(input, low, high)`, which lies within
`[low_value, high_value]`, and the output equals the input whenever the input is
already within those bounds. -/
theorem winsorize_output_within_thresholds (vals : Column) (pl ph lo hi : ℚ)
    (hpl : 0 ≤ pl) (hplph : pl ≤ ph) (hph : ph ≤ 100)
    (hok : computeThreshold vals (pl, ph) = .ok (lo, hi)) (i : ℕ) (x : ℚ)
    (hx : vals.getD i none = some x) :
    (winsorizeColumn lo hi vals).getD i none = some (clampQ lo hi x) ∧
    lo ≤ clampQ lo hi x ∧ clampQ lo hi x ≤ hi ∧
    (lo ≤ x ∧ x ≤ hi → (winsorizeColumn lo hi vals).getD i none = some x) := by
  have hlohi := computeThreshold_lo_le_hi hpl hplph hph hok
  have hmap : (winsorizeColumn lo hi vals).getD i none = some (clampQ lo hi x) := by
    unfold winsorizeColumn
    rw [getD_map_none (winsorizeValue lo hi) rfl vals i, hx]
    rfl
  exact ⟨hmap, (clampQ_bounds x hlohi).1, (clampQ_bounds x hlohi).2,
    fun h => by rw [hmap, clampQ_eq_self h.1 h.2]⟩

/-- Witness for C1 at the column `[0, 1, 2, 3]` with cuts `(0, 100)`, whose resolved
thresholds are `(0, 3)`: observation 1 has value `1`, within bounds and unchanged. -/
theorem winsorize_output_within_thresholds_witness :
    (winsorizeColumn 0 3 [some 0, some 1, some 2, some 3]).getD 1 none =
      some (clampQ 0 3 1) ∧
    (0 : ℚ) ≤ clampQ 0 3 1 ∧ clampQ 0 3 1 ≤ 3 ∧
    ((0 : ℚ) ≤ 1 ∧ (1 : ℚ) ≤ 3 →
      (winsorizeColumn 0 3 [some 0, some 1, some 2, some 3]).getD 1 none = some 1) :=
  winsorize_output_within_thresholds [some 0, some 1, some 2, some 3] 0 100 0 3
    (by norm_num) (by norm_num) (by norm_num)
    (by
      simp [computeThreshold, nonMissing, quantilePosition, interpQuantile,
        List.insertionSort, List.orderedInsert]
      norm_num)
    1 1 rfl

/-! ### Claim C2 -/

/-- C2: under trimming, every output observation is either exactly the input (when it
lies within `[lo, hi]`) or missing; a non-missing input yields the input itself inside
the bounds and missing outside them — never a clamped value. -/
theorem trim_output_exact_or_missing (lo hi : ℚ) (vals : Column) (i : ℕ) :
    ((trimColumn lo hi vals).getD i none = vals.getD i none ∨
     (trimColumn lo hi vals).getD i none = none) ∧
    (∀ x : ℚ, vals.getD i none = some x →
      (trimColumn lo hi vals).getD i none =
        if lo ≤ x ∧ x ≤ hi then some x else none) := by
  have hmap := getD_map_none (trimValue lo hi) rfl vals i
  unfold trimColumn
  constructor
  · rw [hmap]
    cases hv : vals.getD i none with
    | none => exact Or.inr rfl
    | some x =>
      by_cases hin : lo ≤ x ∧ x ≤ hi
      · exact Or.inl (by simp [trimValue, hin])
      · exact Or.inr (by simp [trimValue, hin])
  · intro x hx
    rw [hmap, hx]
    rfl

/-- Witness for C2: with thresholds `(0, 1)`, the out-of-bounds input `5` is trimmed
to missing, not clamped. -/
theorem trim_output_exact_or_missing_witness :
    (trimColumn 0 1 [some 5]).getD 0 none = none := by
  have h := (trim_output_exact_or_missing 0 1 [some 5] 0).2 5 rfl
  rw [if_neg (by norm_num)] at h
  exact h

/-! ### Claim C5 -/

/-- C5 counterexample: at a missing input observation the flag column holds `0`, not
missing — the flag contract of the engine (`flag[i] = 1` iff non-missing and trimmed, else
`0`) makes the flag column total, so "every derived column is missing" fails on the
flag column. -/
theorem flag_on_missing_not_missing :
    (flagColumn 0 1 [none]).getD 0 none = some 0 ∧
    (flagColumn 0 1 [none]).getD 0 none ≠ none :=
  ⟨rfl, by simp [flagColumn, flagValue]⟩

/-- C5 (amended): a missing input yields missing in the transformed column (either
kind) and in both extreme-value columns, under any grouping and threshold table; the
flag column instead holds `0` at a missing input. -/
theorem missing_input_derived_outputs (tt : List (Option ℚ × (ℚ × ℚ)))
    (keys vals : Column) (i : ℕ) (hv : vals.getD i none = none) :
    (applyByKey winsorizeValue tt keys vals).getD i none = none ∧
    (applyByKey trimValue tt keys vals).getD i none = none ∧
    (applyByKey extremeLowValue tt keys vals).getD i none = none ∧
    (applyByKey extremeHighValue tt keys vals).getD i none = none ∧
    (i < keys.length → i < vals.length →
      ∀ th, lookupKey (keys.getD i none) tt = some th →
        (applyByKey flagValue tt keys vals).getD i none = some 0) := by
  refine ⟨applyByKey_getD_missing _ (fun _ _ => rfl) tt keys vals i hv,
          applyByKey_getD_missing _ (fun _ _ => rfl) tt keys vals i hv,
          applyByKey_getD_missing _ (fun _ _ => rfl) tt keys vals i hv,
          applyByKey_getD_missing _ (fun _ _ => rfl) tt keys vals i hv,
          fun hk hv2 th hth => ?_⟩
  rw [applyByKey_getD flagValue tt keys vals i hk hv2, hth, hv]
  rfl

/-- Witness for the amended C5 at one missing observation in one group. -/
theorem missing_input_derived_outputs_witness :
    (applyByKey flagValue [(none, ((0 : ℚ), (1 : ℚ)))] [none] [none]).getD 0 none =
      some 0 :=
  (missing_input_derived_outputs [(none, (0, 1))] [none] [none] 0 rfl).2.2.2.2
    (by decide) (by decide) (0, 1) rfl

/-! ### Claim C6 -/

lemma flag_sum_counts (lo hi : ℚ) (vals : Column) :
    ((flagColumn lo hi vals).filterMap id).sum =
      ((vals.countP fun v =>
        match v with
        | some x => decide (x < lo ∨ hi < x)
        | none => false) : ℚ) := by
  induction vals with
  | nil => simp [flagColumn]
  | cons v vs ih =>
    have hcons : flagColumn lo hi (v :: vs) = flagValue lo hi v :: flagColumn lo hi vs := rfl
    rw [hcons]
    cases v with
    | none =>
      rw [show flagValue lo hi none = some 0 from rfl]
      show ((0 : ℚ) :: (flagColumn lo hi vs).filterMap id).sum = _
      rw [List.sum_cons, List.countP_cons, ih]
      simp
    | some x =>
      by_cases hin : lo ≤ x ∧ x ≤ hi
      · have hflag : flagValue lo hi (some x) = some 0 := by simp [flagValue, hin]
        rw [hflag]
        show ((0 : ℚ) :: (flagColumn lo hi vs).filterMap id).sum = _
        rw [List.sum_cons, List.countP_cons, ih]
        have hp : ¬ (x < lo ∨ hi < x) := by
          push_neg
          exact hin
        simp [hp]
      · have hflag : flagValue lo hi (some x) = some 1 := by simp [flagValue, hin]
        rw [hflag]
        show ((1 : ℚ) :: (flagColumn lo hi vs).filterMap id).sum = _
        rw [List.sum_cons, List.countP_cons, ih]
        have hp : x < lo ∨ hi < x := by
          rcases not_and_or.mp hin with h | h
          · exact Or.inl (not_le.mp h)
          · exact Or.inr (not_le.mp h)
        simp [hp]
        push_cast
        ring

/-- C6: under trim with genflag, the flag at observation `i` is `1` exactly when the
input is non-missing and the trimmed output is missing, and `0` otherwise; the sum of
the flag column equals the count of non-missing inputs strictly outside
`[low_value, high_value]`. -/
theorem flag_marks_exactly_trimmed (lo hi : ℚ) (vals : Column) :
    (∀ i, i < vals.length →
      ((flagColumn lo hi vals).getD i none = some 1 ↔
        (vals.getD i none).isSome ∧ (trimColumn lo hi vals).getD i none = none) ∧
      ((flagColumn lo hi vals).getD i none = some 0 ↔
        ¬ ((vals.getD i none).isSome ∧ (trimColumn lo hi vals).getD i none = none))) ∧
    ((flagColumn lo hi vals).filterMap id).sum =
      ((vals.countP fun v =>
        match v with
        | some x => decide (x < lo ∨ hi < x)
        | none => false) : ℚ) := by
  constructor
  · intro i hilen
    have hf := getD_map_lt (flagValue lo hi) vals hilen
    have ht := getD_map_lt (trimValue lo hi) vals hilen
    unfold flagColumn trimColumn
    rw [hf, ht]
    cases hv : vals.getD i none with
    | none => simp [flagValue]
    | some x =>
      by_cases hin : lo ≤ x ∧ x ≤ hi
      · simp [flagValue, trimValue, hin]
      · simp [flagValue, trimValue, hin]
  · exact flag_sum_counts lo hi vals

/-- Witness for C6 at the single out-of-bounds observation `5` with thresholds
`(0, 1)`: flagged `1`, and the flag sum is the outside count. -/
theorem flag_marks_exactly_trimmed_witness :
    ((flagColumn 0 1 [some 5]).getD 0 none = some 1 ↔
      ((([some 5] : Column).getD 0 none).isSome ∧
        (trimColumn 0 1 [some 5]).getD 0 none = none)) ∧
    ((flagColumn 0 1 [some 5]).getD 0 none = some 0 ↔
      ¬ ((([some 5] : Column).getD 0 none).isSome ∧
        (trimColumn 0 1 [some 5]).getD 0 none = none)) :=
  (flag_marks_exactly_trimmed 0 1 [some 5]).1 0 (by decide)

/-! ### Claim C7 -/

/-- C7: the low-extreme column holds exactly the non-missing inputs strictly below
`low_value` (missing elsewhere), the high-extreme column exactly those strictly above
`high_value`, and every stored value equals the original input. -/
theorem extreme_capture_semantics (lo hi : ℚ) (vals : Column) (i : ℕ) (x : ℚ) :
    ((extremeLowColumn lo hi vals).getD i none = some x ↔
      vals.getD i none = some x ∧ x < lo) ∧
    ((extremeHighColumn lo hi vals).getD i none = some x ↔
      vals.getD i none = some x ∧ hi < x) := by
  have hl := getD_map_none (extremeLowValue lo hi) rfl vals i
  have hh := getD_map_none (extremeHighValue lo hi) rfl vals i
  unfold extremeLowColumn extremeHighColumn
  rw [hl, hh]
  cases hv : vals.getD i none with
  | none => simp [extremeLowValue, extremeHighValue]
  | some y =>
    constructor
    · by_cases hy : y < lo
      · simp only [extremeLowValue, if_pos hy]
        exact ⟨fun h => ⟨h, (Option.some.inj h) ▸ hy⟩, fun h => h.1⟩
      · simp only [extremeLowValue, if_neg hy]
        constructor
        · intro h
          exact absurd h (by simp)
        · rintro ⟨h1, h2⟩
          have hyx := Option.some.inj h1
          subst hyx
          exact absurd h2 hy
    · by_cases hy : hi < y
      · simp only [extremeHighValue, if_pos hy]
        exact ⟨fun h => ⟨h, (Option.some.inj h) ▸ hy⟩, fun h => h.1⟩
      · simp only [extremeHighValue, if_neg hy]
        constructor
        · intro h
          exact absurd h (by simp)
        · rintro ⟨h1, h2⟩
          have hyx := Option.some.inj h1
          subst hyx
          exact absurd h2 hy

/-- Witness for C7: input `5` with thresholds `(10, 20)` is captured on the low side
with its original value. -/
theorem extreme_capture_semantics_witness :
    ((extremeLowColumn 10 20 [some 5]).getD 0 none = some 5 ↔
      (([some 5] : Column).getD 0 none = some 5 ∧ (5 : ℚ) < 10)) ∧
    ((extremeHighColumn 10 20 [some 5]).getD 0 none = some 5 ↔
      (([some 5] : Column).getD 0 none = some 5 ∧ (20 : ℚ) < 5)) :=
  extreme_capture_semantics 10 20 [some 5] 0 5

/-! ### Claim C10 -/

/-- C10 counterexample: winsorizing twice with the same cuts `(0, 50)` is not a no-op:
on the column `[0, 4]` the first pass resolves thresholds `(0, 2)` and yields `[0, 2]`;
the second pass re-resolves thresholds on the winsorized column, getting `(0, 1)`, and
changes the second observation again. -/
theorem winsorize_twice_same_cuts_changes :
    winsorizePipeline [some 0, some 4] (0, 50) = .ok [some 0, some 2] ∧
    winsorizePipeline [some 0, some 2] (0, 50) = .ok [some 0, some 1] ∧
    ([some 0, some 2] : Column) ≠ [some 0, some 1] := by
  refine ⟨?_, ?_, by simp⟩
  · simp [winsorizePipeline, computeThreshold, nonMissing, quantilePosition,
      interpQuantile, List.insertionSort, List.orderedInsert, winsorizeColumn,
      winsorizeValue, clampQ, Except.bind]
    norm_num [Except.instMonad, Except.bind, max_def, min_def]
  · simp [winsorizePipeline, computeThreshold, nonMissing, quantilePosition,
      interpQuantile, List.insertionSort, List.orderedInsert, winsorizeColumn,
      winsorizeValue, clampQ, Except.bind]
    norm_num [Except.instMonad, Except.bind, max_def, min_def]

/-- C10 (amended): re-applying the winsorize clamp with the same resolved thresholds
(rather than re-resolving thresholds from the already-winsorized column) changes zero
observations. -/
theorem winsorize_idempotent_fixed_thresholds (lo hi : ℚ) (vals : Column) :
    winsorizeColumn lo hi (winsorizeColumn lo hi vals) = winsorizeColumn lo hi vals := by
  unfold winsorizeColumn
  rw [List.map_map]
  apply List.map_congr_left
  intro v _
  cases v with
  | none => rfl
  | some x => exact congrArg some (clampQ_idem lo hi x)

/-! ### Claim C4 -/

/-- The type-7 quantile characterization of the claim, stated exactly as the spec words
it: position `h = p/100 × (n−1)` over the sorted values; value = linear interpolation
between the order statistics at positions `⌊h⌋` and `⌈h⌉`. -/
def type7Quantile (s : List ℚ) (p : ℚ) : ℚ :=
  let h := quantilePosition s.length p
  s.getD (Int.floor h).toNat 0 +
    (h - ((Int.floor h : ℤ) : ℚ)) *
      (s.getD (Int.ceil h).toNat 0 - s.getD (Int.floor h).toNat 0)

lemma interp_eq_floor_ceil {s : List ℚ} {h : ℚ} (h0 : 0 ≤ h) :
    interpQuantile s h =
      s.getD (Int.floor h).toNat 0 +
        (h - ((Int.floor h : ℤ) : ℚ)) *
          (s.getD (Int.ceil h).toNat 0 - s.getD (Int.floor h).toNat 0) := by
  have hc : (((Int.floor h).toNat : ℕ) : ℚ) = ((Int.floor h : ℤ) : ℚ) :=
    toNat_floor_cast h0
  by_cases hfr : ((Int.floor h : ℤ) : ℚ) = h
  · simp only [interpQuantile]
    rw [hc, hfr]
    ring
  · have hlt : ((Int.floor h : ℤ) : ℚ) < h := lt_of_le_of_ne (Int.floor_le h) hfr
    have hceil : Int.ceil h = Int.floor h + 1 := by
      rw [Int.ceil_eq_iff]
      constructor
      · push_cast
        linarith
      · push_cast
        linarith [Int.lt_floor_add_one h]
    have hnn : 0 ≤ Int.floor h := Int.floor_nonneg.mpr h0
    have htn : (Int.floor h + 1).toNat = (Int.floor h).toNat + 1 := by omega
    simp only [interpQuantile]
    rw [hceil, htn, hc]

/-- C4: a threshold resolved by the Threshold Calculator is exactly the type-7
linearly interpolated quantile of the sorted non-missing values, at position
`p/100 × (n−1)`, interpolating between the order statistics at the floor and ceil
positions; success also certifies `n ≥ 2`. -/
theorem threshold_is_type7_quantile (vals : Column) (pl ph lo hi : ℚ)
    (hpl : 0 ≤ pl) (hph : 0 ≤ ph)
    (hok : computeThreshold vals (pl, ph) = .ok (lo, hi)) :
    2 ≤ (nonMissing vals).length ∧
    lo = type7Quantile (List.insertionSort (· ≤ ·) (nonMissing vals)) pl ∧
    hi = type7Quantile (List.insertionSort (· ≤ ·) (nonMissing vals)) ph := by
  obtain ⟨hlen, hlo, hhi⟩ := computeThreshold_ok_elim hok
  simp only at hlo hhi
  have hslen : (List.insertionSort (· ≤ ·) (nonMissing vals)).length =
      (nonMissing vals).length := List.length_insertionSort _ _
  refine ⟨hlen, ?_, ?_⟩
  · rw [hlo]
    unfold type7Quantile
    rw [hslen]
    exact interp_eq_floor_ceil (quantilePosition_nonneg hpl hlen)
  · rw [hhi]
    unfold type7Quantile
    rw [hslen]
    exact interp_eq_floor_ceil (quantilePosition_nonneg hph hlen)

/-- Witness for C4 on the column `[0, 4]` with cuts `(0, 50)`: the high threshold is
the midpoint `2`, interpolated at fractional position `0.5`. -/
theorem threshold_is_type7_quantile_witness :
    2 ≤ (nonMissing [some 0, some 4]).length ∧
    (0 : ℚ) = type7Quantile (List.insertionSort (· ≤ ·) (nonMissing [some 0, some 4])) 0 ∧
    (2 : ℚ) = type7Quantile (List.insertionSort (· ≤ ·) (nonMissing [some 0, some 4])) 50 :=
  threshold_is_type7_quantile [some 0, some 4] 0 50 0 2 (by norm_num) (by norm_num)
    (by
      simp [computeThreshold, nonMissing, quantilePosition, interpQuantile,
        List.insertionSort, List.orderedInsert]
      norm_num)

/-! ### Claim C3 -/

lemma bind_ok_eq {ε α β : Type} (a : α) (f : α → Except ε β) :
    (Except.ok a >>= f) = f a := rfl

lemma bind_error_eq {ε α β : Type} (e : ε) (f : α → Except ε β) :
    ((Except.error e : Except ε α) >>= f) = Except.error e := rfl

lemma process_error_of_validate {t : Table} {vars : List String} {o : Winsor2Options}
    {e : W2Error} (h : validateOptions vars o = .error e) :
    process t vars o = .error e := by
  unfold process
  rw [h]
  rfl

lemma validateOptions_configError (vars : List String) (o : Winsor2Options)
    (h : (o.genflag.isSome && !o.trim) = true ∨ badGenextreme o = true ∨
         badVarCuts vars o = true) :
    ∃ m, validateOptions vars o = .error (.configError m) := by
  unfold validateOptions
  split_ifs with h1 h2 h3 h4
  · exact ⟨_, rfl⟩
  · exact ⟨_, rfl⟩
  · exact ⟨_, rfl⟩
  · exact ⟨_, rfl⟩
  · rcases h with h | h | h
    · exact absurd h h1
    · exact absurd h h2
    · exact absurd h h3

/-- C3: `process` rejects, with a `ConfigurationError`, a `genflag` request without
trim mode, a `genextreme` argument not naming exactly two suffixes, and a `var_cuts`
mapping naming a variable absent from the requested variable list — for every table
and variable list, before touching any data. -/
theorem process_raises_config_errors (t : Table) (vars : List String)
    (o : Winsor2Options) :
    ((∃ s, o.genflag = some s) → o.trim = false →
      ∃ m, process t vars o = .error (.configError m)) ∧
    (∀ l, o.genextreme = some l → l.length ≠ 2 →
      ∃ m, process t vars o = .error (.configError m)) ∧
    (∀ name c, (name, c) ∈ o.varCuts → name ∉ vars →
      ∃ m, process t vars o = .error (.configError m)) := by
  refine ⟨?_, ?_, ?_⟩
  · rintro ⟨s, hs⟩ htrim
    obtain ⟨m, hm⟩ := validateOptions_configError vars o
      (Or.inl (by rw [hs, htrim]; rfl))
    exact ⟨m, process_error_of_validate hm⟩
  · intro l hl hlen
    obtain ⟨m, hm⟩ := validateOptions_configError vars o
      (Or.inr (Or.inl (by simp [badGenextreme, hl, hlen])))
    exact ⟨m, process_error_of_validate hm⟩
  · intro name c hmem hnot
    obtain ⟨m, hm⟩ := validateOptions_configError vars o
      (Or.inr (Or.inr (by
        simp only [badVarCuts, List.any_eq_true]
        exact ⟨(name, c), hmem, by simpa using hnot⟩)))
    exact ⟨m, process_error_of_validate hm⟩

/-- Witness for C3: the three invalid configurations of the invalid-configuration scenario of §8 of the spec —
`genflag` without trim, a length-1 `genextreme`, and a `var_cuts` entry for a
variable outside the list — each make `process` fail with a `ConfigurationError`. -/
theorem process_raises_config_errors_witness :
    (∃ m, process [] []
      ⟨(1, 99), none, none, [], none, false, false, none, some "_flag", none,
        false, false⟩ = .error (.configError m)) ∧
    (∃ m, process [] []
      ⟨(1, 99), none, none, [], none, false, false, none, none, some ["_low"],
        false, false⟩ = .error (.configError m)) ∧
    (∃ m, process [] ["wage"]
      ⟨(1, 99), none, none, [("nonexistent", (10, 90))], none, false, false, none,
        none, none, false, false⟩ = .error (.configError m)) :=
  ⟨(process_raises_config_errors [] []
      ⟨(1, 99), none, none, [], none, false, false, none, some "_flag", none,
        false, false⟩).1 ⟨"_flag", rfl⟩ rfl,
   (process_raises_config_errors [] []
      ⟨(1, 99), none, none, [], none, false, false, none, none, some ["_low"],
        false, false⟩).2.1 ["_low"] rfl (by decide),
   (process_raises_config_errors [] ["wage"]
      ⟨(1, 99), none, none, [("nonexistent", (10, 90))], none, false, false, none,
        none, none, false, false⟩).2.2 "nonexistent" (10, 90) (by simp)
      (by simp)⟩

/-! ### Claim C8 -/

lemma thresholdTable_ok_lookup {keys vals : Column} {cuts : ℚ × ℚ}
    {gs : List (Option ℚ)} {tt : List (Option ℚ × (ℚ × ℚ))}
    (hok : thresholdTable keys vals cuts gs = .ok tt) {g : Option ℚ} (hg : g ∈ gs) :
    ∃ th, lookupKey g tt = some th ∧
      computeThreshold (groupValues keys vals g) cuts = .ok th := by
  induction gs generalizing tt with
  | nil => cases hg
  | cons g0 gs ih =>
    unfold thresholdTable at hok
    cases hth : computeThreshold (groupValues keys vals g0) cuts with
    | error e =>
      rw [hth, bind_error_eq] at hok
      exact absurd hok (by simp)
    | ok th0 =>
      rw [hth, bind_ok_eq] at hok
      cases hrest : thresholdTable keys vals cuts gs with
      | error e =>
        rw [hrest, bind_error_eq] at hok
        exact absurd hok (by simp)
      | ok rest =>
        rw [hrest, bind_ok_eq] at hok
        have htt : tt = (g0, th0) :: rest := (Except.ok.inj hok).symm
        subst htt
        by_cases hgg : g = g0
        · subst hgg
          exact ⟨th0, by simp [lookupKey], hth⟩
        · have hg2 : g ∈ gs := by
            cases hg with
            | head => exact absurd rfl hgg
            | tail _ h => exact h
          obtain ⟨th, h1, h2⟩ := ih hrest hg2
          refine ⟨th, ?_, h2⟩
          have : ¬ (g0 = g) := fun h => hgg h.symm
          simp [lookupKey, this, h1]

lemma groupedApply_ok_elim {f : ℚ → ℚ → Option ℚ → Option ℚ}
    {keys vals : Column} {cuts : ℚ × ℚ} {out : Column}
    (h : groupedApply f keys vals cuts = .ok out) :
    ∃ tt, thresholdTable keys vals cuts keys.dedup = .ok tt ∧
      out = applyByKey f tt keys vals := by
  unfold groupedApply at h
  cases htt : thresholdTable keys vals cuts keys.dedup with
  | error e =>
    rw [htt, bind_error_eq] at h
    exact absurd h (by simp)
  | ok tt =>
    rw [htt, bind_ok_eq] at h
    exact ⟨tt, rfl, (Except.ok.inj h).symm⟩

/-- C8: under grouping, the threshold pair of each group is computed from only
the values of that group; each observation is transformed with the thresholds of
its own group
(the output column is the order-preserving union of the per-group transforms), and
under winsorize every non-missing observation of a group lands inside that group interval
`[low_value(group), high_value(group)]`. -/
theorem grouped_winsorize_bounds (keys vals out : Column) (pl ph lo hi : ℚ)
    (g : Option ℚ)
    (hpl : 0 ≤ pl) (hplph : pl ≤ ph) (hph : ph ≤ 100)
    (hok : groupedApply winsorizeValue keys vals (pl, ph) = .ok out)
    (i : ℕ) (hik : i < keys.length) (hiv : i < vals.length)
    (hg : keys.getD i none = g)
    (hth : computeThreshold (groupValues keys vals g) (pl, ph) = .ok (lo, hi))
    (x : ℚ) (hx : vals.getD i none = some x) :
    out.getD i none = some (clampQ lo hi x) ∧
    lo ≤ clampQ lo hi x ∧ clampQ lo hi x ≤ hi := by
  obtain ⟨tt, htt, hout⟩ := groupedApply_ok_elim hok
  have hmemk : g ∈ keys := by
    rw [← hg, List.getD_eq_getElem keys none hik]
    exact List.getElem_mem hik
  have hmem : g ∈ keys.dedup := List.mem_dedup.mpr hmemk
  obtain ⟨th, hl, hcth⟩ := thresholdTable_ok_lookup htt hmem
  have hth2 : th = (lo, hi) := Except.ok.inj (hcth.symm.trans hth)
  subst hth2
  have happ := applyByKey_getD winsorizeValue tt keys vals i hik hiv
  rw [hg, hl, hx] at happ
  have hlohi := computeThreshold_lo_le_hi hpl hplph hph hth
  rw [hout, happ]
  exact ⟨rfl, (clampQ_bounds x hlohi).1, (clampQ_bounds x hlohi).2⟩

/-- Witness for C8 with two groups: group 1 holds `[0, 4]` (thresholds `(0, 2)`),
group 2 holds `[10, 20]`; observation 1 (value `4`, group 1) is clamped to its own
group-specific high threshold `2`. -/
theorem grouped_winsorize_bounds_witness :
    (([some 0, some 2, some 10, some 15] : Column).getD 1 none =
      some (clampQ 0 2 4)) ∧
    (0 : ℚ) ≤ clampQ 0 2 4 ∧ clampQ 0 2 4 ≤ 2 :=
  grouped_winsorize_bounds [some 1, some 1, some 2, some 2]
    [some 0, some 4, some 10, some 20] [some 0, some 2, some 10, some 15]
    0 50 0 2 (some 1) (by norm_num) (by norm_num) (by norm_num)
    (by
      have hd : ([some 1, some 1, some 2, some 2] : Column).dedup =
          [some 1, some 2] := by decide
      have hg1 : groupValues [some 1, some 1, some 2, some 2]
          [some 0, some 4, some 10, some 20] (some 1) = [some 0, some 4] := by decide
      have hg2 : groupValues [some 1, some 1, some 2, some 2]
          [some 0, some 4, some 10, some 20] (some 2) = [some 10, some 20] := by decide
      have h1 : computeThreshold ([some 0, some 4] : Column) (0, 50) = .ok (0, 2) := by
        simp [computeThreshold, nonMissing, quantilePosition, interpQuantile,
          List.insertionSort, List.orderedInsert]
        norm_num
      have h2 : computeThreshold ([some 10, some 20] : Column) (0, 50) =
          .ok (10, 15) := by
        simp [computeThreshold, nonMissing, quantilePosition, interpQuantile,
          List.insertionSort, List.orderedInsert]
        norm_num
      unfold groupedApply
      rw [hd]
      simp only [thresholdTable, hg1, hg2, h1, h2, bind_ok_eq, bind_error_eq]
      simp only [applyByKey, lookupKey]
      norm_num [winsorizeValue, clampQ, max_def, min_def])
    1 (by decide) (by decide) rfl
    (by
      have hg1 : groupValues [some 1, some 1, some 2, some 2]
          [some 0, some 4, some 10, some 20] (some 1) = [some 0, some 4] := by decide
      rw [hg1]
      simp [computeThreshold, nonMissing, quantilePosition, interpQuantile,
        List.insertionSort, List.orderedInsert]
      norm_num)
    4 rfl

/-! ### Claim C9 -/

lemma lookupCol_append_left {t t2 : Table} {name : String}
    (h : (lookupCol name t).isSome) :
    lookupCol name (t ++ t2) = lookupCol name t := by
  induction t with
  | nil => simp [lookupCol] at h
  | cons p rest ih =>
    obtain ⟨n, c⟩ := p
    by_cases hn : n = name
    · simp [lookupCol, hn]
    · simp only [lookupCol, if_neg hn] at h
      simp only [List.cons_append, lookupCol, if_neg hn]
      exact ih h

/-- C9: unless in-place replace mode is requested, `process` leaves the original
table unchanged — the output is the input table with new columns appended, so every
original column is still found with its original values. -/
theorem process_preserves_input (t : Table) (vars : List String) (o : Winsor2Options)
    (out : Table) (hrep : o.replace = false) (hok : process t vars o = .ok out) :
    (∃ extra, out = t ++ extra) ∧
    (∀ name, (lookupCol name t).isSome → lookupCol name out = lookupCol name t) := by
  unfold process at hok
  cases hval : validateOptions vars o with
  | error e =>
    rw [hval, bind_error_eq] at hok
    exact absurd hok (by simp)
  | ok u =>
    rw [hval, bind_ok_eq] at hok
    cases hnc : processVars t o vars with
    | error e =>
      rw [hnc, bind_error_eq] at hok
      exact absurd hok (by simp)
    | ok newCols =>
      rw [hnc, bind_ok_eq, hrep] at hok
      simp only [Bool.false_eq_true, if_false] at hok
      have hout : out = t ++ newCols := (Except.ok.inj hok).symm
      subst hout
      exact ⟨⟨newCols, rfl⟩, fun name h => lookupCol_append_left h⟩

lemma processVar_lookup_some {t : Table} {o : Winsor2Options} {v : String}
    {vals : Column} (h : lookupCol v t = some vals) :
    processVar t o v = processVarCols t o v vals := by
  unfold processVar
  rw [h]

/-- Witness for C9: a one-variable table processed with cuts `(0, 100)` (no replace)
returns the original column unchanged, with only the new `_w` column appended. -/
theorem process_preserves_input_witness :
    (∃ extra, ([("x", [some 0, some 1, some 2]),
                ("x_w", [some 0, some 1, some 2])] : Table) =
      [("x", [some 0, some 1, some 2])] ++ extra) ∧
    (∀ name, (lookupCol name [("x", [some 0, some 1, some 2])]).isSome →
      lookupCol name [("x", [some 0, some 1, some 2]),
                      ("x_w", [some 0, some 1, some 2])] =
        lookupCol name [("x", [some 0, some 1, some 2])]) :=
  process_preserves_input [("x", [some 0, some 1, some 2])] ["x"]
    ⟨(0, 100), none, none, [], none, false, false, none, none, none, false, false⟩
    [("x", [some 0, some 1, some 2]), ("x_w", [some 0, some 1, some 2])] rfl
    (by
      have hval : validateOptions ["x"]
          ⟨(0, 100), none, none, [], none, false, false, none, none, none, false,
            false⟩ = .ok () := by decide
      have hded : ([none, none, none] : Column).dedup = [none] := by decide
      have hg : groupValues [none, none, none] [some 0, some 1, some 2] none =
          [some 0, some 1, some 2] := by decide
      have hct : computeThreshold ([some 0, some 1, some 2] : Column) (0, 100) =
          .ok (0, 2) := by
        simp [computeThreshold, nonMissing, quantilePosition, interpQuantile,
          List.insertionSort, List.orderedInsert]
        norm_num
      have hlook : lookupCol "x" [("x", [some 0, some 1, some 2])] =
          some [some 0, some 1, some 2] := by decide
      have hpv : processVar [("x", [some 0, some 1, some 2])]
          ⟨(0, 100), none, none, [], none, false, false, none, none, none, false,
            false⟩ "x" = .ok [("x_w", [some 0, some 1, some 2])] := by
        rw [processVar_lookup_some hlook]
        unfold processVarCols
        have hkeys : groupKeysFor [("x", [some 0, some 1, some 2])]
            ⟨(0, 100), none, none, [], none, false, false, none, none, none, false,
              false⟩ ([some 0, some 1, some 2] : Column).length =
            .ok [none, none, none] := rfl
        rw [hkeys, bind_ok_eq]
        have hres : resolveCuts
            ⟨(0, 100), none, none, [], none, false, false, none, none, none, false,
              false⟩ "x" = (0, 100) := rfl
        rw [hres, hded]
        simp only [thresholdTable, hg, hct, bind_ok_eq]
        simp only [outColumns, transformFn, mainSuffix, applyByKey, lookupKey, if_pos]
        norm_num [winsorizeValue, clampQ, max_def, min_def]
        rfl
      unfold process
      rw [hval, bind_ok_eq]
      unfold processVars
      rw [hpv, bind_ok_eq]
      unfold processVars
      rw [bind_ok_eq]
      rfl)

end Pywinsor2
